import Mathlib

/-!
Verification of the replication delete queue
(src/replication/delete_queue.cc).

The delete queue is a persistent record consisting of three parts held in a
root block:
  * a primal offset (an `off64_t`),
  * an Offset Index: a large buffer holding packed 12-byte `t_and_o`
    entries (4-byte `repli_timestamp`, 8-byte `off64_t` offset),
  * a Key Log: a large buffer holding length-prefixed serialized keys
    (1 length byte, then that many content bytes).

We model the state shallowly: the Offset Index as a list of `t_and_o`
records, the Key Log as a list of bytes, the primal offset as an integer.
A `large_buf_ref` of size 0 (the unallocated state) corresponds to an
empty list.  Machine integers are modelled by `Nat`/`Int`: the timestamp
field `repli_timestamp.time` is a `uint32_t` that the code only compares
(never does arithmetic on), and the `off64_t` offsets stay far below
2^63 in every run we reason about, so no wrap-around arithmetic arises.

The two operations, `add_key_to_delete_queue` and
`dump_keys_from_delete_queue`, are translated statement by statement.
`rassert`-failures are modelled by `Option.none`: a function returns
`none` exactly when the corresponding C++ run would trip an `rassert`.
The stream receiver (`deletion_key_stream_receiver_t`) is modelled by the
list of events the dump operation feeds it: `deliver` for each
`recipient->deletion_key(k)` call and `done` for
`recipient->done_deletion_keys()`.
-/

/-- Model of `repli_timestamp`: the code only uses its `uint32_t` field
`time`, so a timestamp is a natural number here. -/
def repli_timestamp : Type := Nat

/-- Model of `delete_queue::t_and_o`, the packed 12-byte Offset Index
entry: a timestamp and an `off64_t` offset into the Key Log. -/
structure t_and_o where
  timestamp : Nat
  offset : Int
deriving DecidableEq, Repr

/-- Byte size of a packed `t_and_o` entry (4-byte timestamp plus 8-byte
offset, `__attribute__((__packed__))`). -/
def t_and_o_byte_size : Nat := 12

/-- Model of `store_key_t`: a key of at most 255 content bytes (the C++
struct stores the size in a `uint8_t` field, so the bound is enforced by
the type there). Bytes are modelled as naturals. -/
structure store_key_t where
  contents : List Nat
  size_le : contents.length ≤ 255

/-- Size field of a key, as the C++ `key->size`. -/
def store_key_t.size (k : store_key_t) : Nat := k.contents.length

/-- Serialized form of a key in the Key Log: the single length byte
followed by the content bytes (the `1 + key->size` bytes that
`fill_at` copies from a `store_key_t`). -/
def serialized_key (k : store_key_t) : List Nat := k.contents.length :: k.contents

/-- Number of Key Log bytes occupied by one key. -/
def serialized_size (k : store_key_t) : Nat := 1 + k.contents.length

/-- Abstract state of one delete queue: the primal offset scalar, the
contents of the Offset Index large buffer (as a list of `t_and_o`
entries; the buffer's byte size is 12 times the list length), and the
contents of the Key Log large buffer (as a list of bytes). A
`large_buf_ref` in the unallocated state (size 0) corresponds to an
empty list. -/
structure DeleteQueue where
  primal_offset : Int
  t_o : List t_and_o
  keys : List Nat

/-- Byte size of the Offset Index large buffer (`t_o_ref->size`). -/
def t_o_ref_byte_size (q : DeleteQueue) : Nat := t_and_o_byte_size * q.t_o.length

/-- The delete queue state established by `initialize_empty_delete_queue`:
primal offset 0 and both large buffers unallocated (size 0). -/
def empty_delete_queue : DeleteQueue :=
  { primal_offset := 0, t_o := [], keys := [] }

/-- Whether `add_key_to_delete_queue` takes the out-of-order branch and
emits the `logWRN` warning: the Offset Index is nonempty and its last
entry's timestamp is strictly greater than the incoming one. -/
def emits_out_of_order_warning (q : DeleteQueue) (timestamp : Nat) : Bool :=
  match q.t_o.getLast? with
  | none => false
  | some last_tao => decide (last_tao.timestamp > timestamp)

/-- Effective timestamp used by `add_key_to_delete_queue` after the
out-of-order clamp (`timestamp = last_tao.timestamp` when the last stored
timestamp is larger). -/
def effective_timestamp (q : DeleteQueue) (timestamp : Nat) : Nat :=
  match q.t_o.getLast? with
  | none => timestamp
  | some last_tao =>
      if last_tao.timestamp > timestamp then last_tao.timestamp else timestamp

/-- Model of `add_key_to_delete_queue`. Step 1 updates the Offset Index:
if its large buffer is unallocated (size 0), allocate it with the single
entry `(timestamp, primal_offset + keys_ref->size)`; otherwise read the
last entry, clamp the timestamp up to it if the incoming one is smaller
(this is the warning branch), and append a new entry
`(timestamp, primal_offset + keys_ref->size)` exactly when the clamped
timestamp differs from the last stored one. Step 2 appends the
length-prefixed key bytes to the Key Log. -/
def add_key_to_delete_queue (q : DeleteQueue) (timestamp : Nat) (key : store_key_t) :
    DeleteQueue :=
  let t_o_updated :=
    match q.t_o.getLast? with
    | none =>
        [{ timestamp := timestamp, offset := q.primal_offset + q.keys.length }]
    | some last_tao =>
        let ts := if last_tao.timestamp > timestamp then last_tao.timestamp else timestamp
        if last_tao.timestamp ≠ ts then
          q.t_o ++ [{ timestamp := ts, offset := q.primal_offset + q.keys.length }]
        else
          q.t_o
  { primal_offset := q.primal_offset,
    t_o := t_o_updated,
    keys := q.keys ++ serialized_key key }

/-- Fold a list of `(timestamp, key)` enqueue requests over a starting
state, one `add_key_to_delete_queue` call per element, left to right. -/
def run_enqueues (q : DeleteQueue) (inputs : List (Nat × store_key_t)) : DeleteQueue :=
  inputs.foldl (fun s p => add_key_to_delete_queue s p.1 p.2) q

/-- Events fed to the `deletion_key_stream_receiver_t` by
`dump_keys_from_delete_queue`: one `deliver` per
`recipient->deletion_key(k)` call (carrying the key's content bytes) and
`done` for the final `recipient->done_deletion_keys()`. -/
inductive dq_event : Type
  | deliver : List Nat → dq_event
  | done : dq_event
deriving DecidableEq, Repr

/-- Model of the Offset Index scan loop of `dump_keys_from_delete_queue`
(lines 146-162): walk the entries in order, carrying the `begin_found`
flag and `begin_offset` accumulator.  At each entry, first record
`begin_offset = tao.offset - primal_offset` if this is the first entry
with `begin_timestamp <= tao.timestamp`; then, if
`end_timestamp <= tao.timestamp`, stop with `end_found` and
`end_offset = tao.offset - primal_offset` --- returning `none` if the
`rassert(begin_found)` at that point would fail. The result is
`(begin_found, begin_offset, end_found, end_offset)`. -/
def scan_t_o (primal : Int) (bts ets : Nat) :
    List t_and_o → Bool → Int → Option (Bool × Int × Bool × Int)
  | [], begin_found, begin_off => some (begin_found, begin_off, false, 0)
  | tao :: rest, begin_found, begin_off =>
      let found2 := begin_found || decide (bts ≤ tao.timestamp)
      let off2 :=
        if !begin_found && decide (bts ≤ tao.timestamp) then tao.offset - primal
        else begin_off
      if ets ≤ tao.timestamp then
        if found2 then some (found2, off2, true, tao.offset - primal) else none
      else
        scan_t_o primal bts ets rest found2 off2

/-- Model of the sequential Key Log walk of `dump_keys_from_delete_queue`
(lines 192-200) over a fetched byte slice: read a length byte `L`, check
`rassert(k->size + 1 <= e - p)` (`none` on failure), hand over the next
`L` bytes as one key, advance by `1 + L` bytes. Returns the list of
decoded keys' contents. -/
def walk_keys : List Nat → Option (List (List Nat))
  | [] => some []
  | len :: rest =>
      if len ≤ rest.length then
        match walk_keys (rest.drop len) with
        | none => none
        | some ks => some (rest.take len :: ks)
      else none
termination_by l => l.length
decreasing_by
  simp only [List.length_drop, List.length_cons]
  omega

/-- Offset-computation phase of `dump_keys_from_delete_queue` (lines
134-171): the outer guard `t_o_ref->size != 0 && keys_ref->size != 0`,
the Offset Index scan, the `goto done` when `begin_found` is false, and
the `end_offset = keys_ref->size` fallback when `end_found` is false.
Result: `none` if an `rassert` fired inside the scan, `some none` on the
paths that jump straight to `done`, and `some (some (b, e))` with the
begin/end byte offsets (relative to `primal_offset`) otherwise. -/
def dump_offsets (q : DeleteQueue) (bts ets : Nat) : Option (Option (Int × Int)) :=
  if q.t_o.length ≠ 0 ∧ q.keys.length ≠ 0 then
    match scan_t_o q.primal_offset bts ets q.t_o false 0 with
    | none => none
    | some (begin_found, begin_off, end_found, end_off) =>
        if begin_found then
          some (some (begin_off, if end_found then end_off else (q.keys.length : Int)))
        else
          some none
  else
    some none

/-- Model of `dump_keys_from_delete_queue`: compute the offsets, check
`rassert(begin_offset <= end_offset)` (`none` on failure), and when the
range is nonempty read the Key Log slice
`[begin_offset, end_offset)` and walk it, delivering each decoded key;
finally signal `done_deletion_keys`. The value is the list of receiver
events, or `none` when an `rassert` fired. -/
def dump_keys_from_delete_queue (q : DeleteQueue) (bts ets : Nat) :
    Option (List dq_event) :=
  match dump_offsets q bts ets with
  | none => none
  | some none => some [dq_event.done]
  | some (some (begin_off, end_off)) =>
      if begin_off ≤ end_off then
        if begin_off < end_off then
          match walk_keys ((q.keys.drop begin_off.toNat).take (end_off - begin_off).toNat) with
          | none => none
          | some ks => some (ks.map dq_event.deliver ++ [dq_event.done])
        else some [dq_event.done]
      else none

/-- Model of `NULL_BLOCK_ID` (`block_id_t(-1)` in the serializer types,
outside this file's source): the sentinel written into every cleared
block pointer. Its concrete value is irrelevant to the claims. -/
def NULL_BLOCK_ID : Nat := 4294967295

/-- Model of `large_buf_ref` (declared in a buffer-cache header outside
this source file): an offset, a size, and the inline array of block ids.
The number of inline block-id slots is determined by the byte budget the
root block gives the reference, which we carry as the list length. -/
structure large_buf_ref where
  offset : Int
  size : Int
  block_ids : List Nat
deriving DecidableEq, Repr

/-- Model of `initialize_large_buf_ref(ref, size_in_bytes)`: set the
offset and size to 0 and every inline block id to `NULL_BLOCK_ID`. The
`num_block_ids` parameter stands for
`(size_in_bytes - offsetof(large_buf_ref, block_ids)) / sizeof(block_id_t)`,
whose constituent constants live in headers outside this source file. -/
def initialize_large_buf_ref (num_block_ids : Nat) : large_buf_ref :=
  { offset := 0, size := 0, block_ids := List.replicate num_block_ids NULL_BLOCK_ID }

/-- Model of the root block `delete_queue_block_t`: the magic tag, the
primal offset, and the two `large_buf_ref`s laid out behind them. -/
structure delete_queue_block_t where
  magic : List Char
  primal_offset : Int
  timestamps_and_offsets : large_buf_ref
  keys : large_buf_ref

/-- The expected magic of a delete queue root block:
`{ { 'D', 'e', 'l', 'Q' } }`. -/
def delete_queue_block_t.expected_magic : List Char := ['D', 'e', 'l', 'Q']

/-- Model of `initialize_empty_delete_queue(dqb, block_size)`: write the
magic, zero the primal offset, and initialize both large-buffer
references to the unallocated state. The two `num_block_ids` parameters
stand for the slot counts derived from `TIMESTAMPS_AND_OFFSETS_SIZE` and
`keys_largebuf_ref_size(block_size)` respectively. -/
def initialize_empty_delete_queue (num_ids_t_o num_ids_keys : Nat) :
    delete_queue_block_t :=
  { magic := delete_queue_block_t.expected_magic,
    primal_offset := 0,
    timestamps_and_offsets := initialize_large_buf_ref num_ids_t_o,
    keys := initialize_large_buf_ref num_ids_keys }

/-!
Abstraction layer used by the proofs: a reachable queue state is
characterized by its journal of effective (clamped) `(timestamp, key)`
pairs, and equivalently by that journal grouped into runs of equal
timestamps.  These definitions exist to state and prove the theorems;
only `clamp_journal` / `spec_expected_deliveries` restate spec language
(the refinement target of the range-correctness claim).
-/

/-- Journal of effective pairs, following the spec's words: each incoming
timestamp is clamped up to the largest effective timestamp seen so far
(`lo`), so the effective timestamps are the running maxima of the raw
ones. This is the spec-side description of what the queue records. -/
def clamp_journal : List (Nat × store_key_t) → Nat → List (Nat × store_key_t)
  | [], _ => []
  | (t, k) :: rest, lo => (max lo t, k) :: clamp_journal rest (max lo t)

/-- Spec-side description of what a range query must deliver (the
refinement target, written from the spec's words): the keys whose
effective (clamped) timestamp `t` satisfies `bts ≤ t < ets`, kept in
enqueue order (which, the effective timestamps being non-decreasing, is
also timestamp order with equal timestamps in enqueue order). -/
def spec_expected_deliveries (inputs : List (Nat × store_key_t)) (bts ets : Nat) :
    List (List Nat) :=
  ((clamp_journal inputs 0).filter (fun p => decide (bts ≤ p.1) && decide (p.1 < ets))).map
    (fun p => p.2.contents)

/-- Grouped journal: runs of equal effective timestamps, each with its
nonempty list of keys in enqueue order. -/
def key_groups : Type := List (Nat × List store_key_t)

/-- Effect of one enqueue on the grouped journal: start a new group when
the incoming timestamp is strictly above the last group's, otherwise
(equal or clamped-up) append the key to the last group. -/
def gadd : List (Nat × List store_key_t) → Nat → store_key_t →
    List (Nat × List store_key_t)
  | [], t, k => [(t, [k])]
  | [(ts0, ks0)], t, k =>
      if ts0 < t then [(ts0, ks0), (t, [k])] else [(ts0, ks0 ++ [k])]
  | g :: g2 :: rest, t, k => g :: gadd (g2 :: rest) t k

/-- Grouped journal reached from the empty queue by a list of enqueues. -/
def grun (inputs : List (Nat × store_key_t)) : List (Nat × List store_key_t) :=
  inputs.foldl (fun G p => gadd G p.1 p.2) []

/-- Key Log bytes of a list of keys: their serialized forms, in order. -/
def bytes_of_keys (ks : List store_key_t) : List Nat :=
  ks.foldr (fun k acc => serialized_key k ++ acc) []

/-- Key Log byte size of one group. -/
def group_size (g : Nat × List store_key_t) : Nat :=
  (g.2.map serialized_size).sum

/-- Key Log byte size of a grouped journal. -/
def total_gsize (G : List (Nat × List store_key_t)) : Nat :=
  (G.map group_size).sum

/-- Key Log bytes of a grouped journal. -/
def keylog_of_groups (G : List (Nat × List store_key_t)) : List Nat :=
  G.foldr (fun g acc => bytes_of_keys g.2 ++ acc) []

/-- Offset Index entries of a grouped journal: one entry per group,
carrying the group's timestamp and the accumulated byte offset of its
first key. -/
def index_of_groups : List (Nat × List store_key_t) → Int → List t_and_o
  | [], _ => []
  | g :: rest, off =>
      { timestamp := g.1, offset := off } :: index_of_groups rest (off + group_size g)

/-- Queue state represented by a grouped journal (primal offset 0, as in
every state reachable from initialization). -/
def state_of_groups (G : List (Nat × List store_key_t)) : DeleteQueue :=
  { primal_offset := 0, t_o := index_of_groups G 0, keys := keylog_of_groups G }

/-- Flatten a grouped journal back into its journal of pairs. -/
def ungroup (G : List (Nat × List store_key_t)) : List (Nat × store_key_t) :=
  G.foldr (fun g acc => g.2.map (fun k => (g.1, k)) ++ acc) []

/-- Timestamp of the last group, or 0 for the empty journal (the neutral
lower bound for clamping). -/
def glb (G : List (Nat × List store_key_t)) : Nat :=
  ((G.getLast?).map (fun g => g.1)).getD 0

/-- Wellformedness of a grouped journal: every group is nonempty and the
group timestamps are strictly increasing. -/
def gwf (G : List (Nat × List store_key_t)) : Prop :=
  (∀ g ∈ G, g.2 ≠ []) ∧ List.Pairwise (fun a b => a.1 < b.1) G

/-- Contents of the keys a range query over a grouped journal should
deliver: skip the groups below `bts`, then take groups while they are
below `ets`, and list their keys' contents in order. -/
def gkeys_in_range (G : List (Nat × List store_key_t)) (bts ets : Nat) :
    List (List Nat) :=
  (((G.dropWhile (fun g => decide (g.1 < bts))).takeWhile (fun g => decide (g.1 < ets))).foldr
    (fun g acc => g.2.map (fun k => k.contents) ++ acc) [])

/-- All keys of a grouped journal, in order. -/
def gkeys (G : List (Nat × List store_key_t)) : List store_key_t :=
  G.foldr (fun g acc => g.2 ++ acc) []

/-!
Basic lemmas about the byte-level and index-level views of a grouped
journal.
-/

theorem serialized_key_length (k : store_key_t) :
    (serialized_key k).length = serialized_size k := by
  simp [serialized_key, serialized_size]
  omega

theorem bytes_of_keys_nil : bytes_of_keys [] = [] := rfl

theorem bytes_of_keys_cons (k : store_key_t) (ks : List store_key_t) :
    bytes_of_keys (k :: ks) = serialized_key k ++ bytes_of_keys ks := rfl

theorem bytes_of_keys_append (ks ks' : List store_key_t) :
    bytes_of_keys (ks ++ ks') = bytes_of_keys ks ++ bytes_of_keys ks' := by
  induction ks with
  | nil => simp [bytes_of_keys]
  | cons k ks ih => simp [bytes_of_keys_cons, ih]

theorem bytes_of_keys_length (ks : List store_key_t) :
    (bytes_of_keys ks).length = (ks.map serialized_size).sum := by
  induction ks with
  | nil => simp [bytes_of_keys]
  | cons k ks ih => simp [bytes_of_keys_cons, serialized_key_length, ih]

theorem keylog_nil : keylog_of_groups [] = [] := rfl

theorem keylog_cons (g : Nat × List store_key_t) (G : List (Nat × List store_key_t)) :
    keylog_of_groups (g :: G) = bytes_of_keys g.2 ++ keylog_of_groups G := rfl

theorem keylog_append (A B : List (Nat × List store_key_t)) :
    keylog_of_groups (A ++ B) = keylog_of_groups A ++ keylog_of_groups B := by
  induction A with
  | nil => simp [keylog_nil]
  | cons g A ih => simp [keylog_cons, ih]

theorem keylog_length (G : List (Nat × List store_key_t)) :
    (keylog_of_groups G).length = total_gsize G := by
  induction G with
  | nil => simp [keylog_nil, total_gsize]
  | cons g G ih =>
      simp [keylog_cons, total_gsize, bytes_of_keys_length, group_size] at *
      omega

theorem gkeys_nil : gkeys [] = [] := rfl

theorem gkeys_cons (g : Nat × List store_key_t) (G : List (Nat × List store_key_t)) :
    gkeys (g :: G) = g.2 ++ gkeys G := rfl

theorem keylog_eq_bytes_of_gkeys (G : List (Nat × List store_key_t)) :
    keylog_of_groups G = bytes_of_keys (gkeys G) := by
  induction G with
  | nil => rfl
  | cons g G ih => simp [keylog_cons, gkeys_cons, bytes_of_keys_append, ih]

theorem index_nil (off : Int) : index_of_groups [] off = [] := rfl

theorem index_cons (g : Nat × List store_key_t) (G : List (Nat × List store_key_t))
    (off : Int) :
    index_of_groups (g :: G) off =
      { timestamp := g.1, offset := off } :: index_of_groups G (off + group_size g) := rfl

theorem index_length (G : List (Nat × List store_key_t)) (off : Int) :
    (index_of_groups G off).length = G.length := by
  induction G generalizing off with
  | nil => rfl
  | cons g G ih => simp [index_cons, ih]

theorem index_append (A B : List (Nat × List store_key_t)) (off : Int) :
    index_of_groups (A ++ B) off =
      index_of_groups A off ++ index_of_groups B (off + total_gsize A) := by
  induction A generalizing off with
  | nil => simp [index_nil, total_gsize]
  | cons g A ih =>
      simp only [List.cons_append, index_cons, ih, total_gsize, List.map_cons, List.sum_cons]
      congr 2
      push_cast
      ring

theorem index_last_ts (G : List (Nat × List store_key_t)) (off : Int) :
    ((index_of_groups G off).getLast?).map t_and_o.timestamp =
      (G.getLast?).map (fun g => g.1) := by
  induction G generalizing off with
  | nil => rfl
  | cons g G ih =>
      cases G with
      | nil => rfl
      | cons g2 G2 =>
          rw [index_cons, index_cons, List.getLast?_cons_cons, ← index_cons,
            List.getLast?_cons_cons]
          exact ih _

/-!
Lemmas about the effect of a single grouped enqueue (`gadd`).
-/

theorem gadd_keylog (G : List (Nat × List store_key_t)) (t : Nat) (k : store_key_t) :
    keylog_of_groups (gadd G t k) = keylog_of_groups G ++ serialized_key k := by
  induction G with
  | nil => simp [gadd, keylog_cons, keylog_nil, bytes_of_keys_cons, bytes_of_keys_nil]
  | cons g G ih =>
      cases G with
      | nil =>
          rcases g with ⟨ts0, ks0⟩
          by_cases h : ts0 < t
          · simp [gadd, h, keylog_cons, keylog_nil, bytes_of_keys_cons, bytes_of_keys_nil]
          · simp [gadd, h, keylog_cons, keylog_nil, bytes_of_keys_append,
              bytes_of_keys_cons, bytes_of_keys_nil]
      | cons g2 G2 =>
          simp only [gadd, keylog_cons, ih, List.append_assoc]

theorem gadd_glb (G : List (Nat × List store_key_t)) (t : Nat) (k : store_key_t) :
    glb (gadd G t k) = max (glb G) t := by
  induction G with
  | nil => simp [gadd, glb]
  | cons g G ih =>
      cases G with
      | nil =>
          rcases g with ⟨ts0, ks0⟩
          by_cases h : ts0 < t
          · simp [gadd, h, glb, List.getLast?_cons_cons]
            omega
          · simp [gadd, h, glb]
            omega
      | cons g2 G2 =>
          have h2 : gadd (g2 :: G2) t k ≠ [] := by
            cases g2 with
            | mk a b =>
                cases G2 with
                | nil => by_cases h : a < t <;> simp [gadd, h]
                | cons g3 G3 => simp [gadd]
          rcases List.exists_cons_of_ne_nil h2 with ⟨y, ys, hys⟩
          simp only [gadd, hys, glb, List.getLast?_cons_cons] at *
          exact ih

theorem gadd_ungroup (G : List (Nat × List store_key_t)) (t : Nat) (k : store_key_t) :
    ungroup (gadd G t k) = ungroup G ++ [(max (glb G) t, k)] := by
  induction G with
  | nil => simp [gadd, ungroup, glb]
  | cons g G ih =>
      cases G with
      | nil =>
          rcases g with ⟨ts0, ks0⟩
          by_cases h : ts0 < t
          · simp [gadd, h, ungroup, glb]
            omega
          · have hm : max ts0 t = ts0 := by omega
            simp [gadd, h, ungroup, glb, hm]
      | cons g2 G2 =>
          have hglb : glb (g :: g2 :: G2) = glb (g2 :: G2) := by
            simp [glb, List.getLast?_cons_cons]
          simp only [gadd, ungroup, List.foldr_cons] at *
          rw [ih, hglb]
          simp [List.append_assoc]

theorem glb_nil : glb [] = 0 := rfl

theorem glb_singleton (g : Nat × List store_key_t) : glb [g] = g.1 := by
  simp [glb]

theorem glb_cons_cons (g g2 : Nat × List store_key_t) (G2 : List (Nat × List store_key_t)) :
    glb (g :: g2 :: G2) = glb (g2 :: G2) := by
  simp [glb, List.getLast?_cons_cons]

theorem glb_mem (G : List (Nat × List store_key_t)) (h : G ≠ []) :
    ∃ g ∈ G, g.1 = glb G := by
  induction G with
  | nil => exact absurd rfl h
  | cons g G ih =>
      cases G with
      | nil => exact ⟨g, List.mem_singleton.mpr rfl, (glb_singleton g).symm⟩
      | cons g2 G2 =>
          obtain ⟨x, hx, hx1⟩ := ih (by simp)
          exact ⟨x, List.mem_cons_of_mem g hx, by rw [glb_cons_cons]; exact hx1⟩

theorem gadd_index_coalesce (G : List (Nat × List store_key_t)) (t : Nat)
    (k : store_key_t) (off : Int) (hne : G ≠ []) (hle : t ≤ glb G) :
    index_of_groups (gadd G t k) off = index_of_groups G off := by
  induction G generalizing off with
  | nil => exact absurd rfl hne
  | cons g G ih =>
      cases G with
      | nil =>
          rcases g with ⟨ts0, ks0⟩
          rw [glb_singleton] at hle
          have h : ¬ ts0 < t := by omega
          simp [gadd, h, index_cons, index_nil]
      | cons g2 G2 =>
          rw [glb_cons_cons] at hle
          have step : gadd (g :: g2 :: G2) t k = g :: gadd (g2 :: G2) t k := rfl
          rw [step, index_cons, ih _ (by simp) hle, ← index_cons]

theorem gadd_index_new (G : List (Nat × List store_key_t)) (t : Nat)
    (k : store_key_t) (off : Int) (h : G = [] ∨ glb G < t) :
    index_of_groups (gadd G t k) off =
      index_of_groups G off ++ [{ timestamp := t, offset := off + total_gsize G }] := by
  induction G generalizing off with
  | nil => simp [gadd, index_cons, index_nil, total_gsize]
  | cons g G ih =>
      cases G with
      | nil =>
          rcases g with ⟨ts0, ks0⟩
          rcases h with h | h
          · exact absurd h (by simp)
          · rw [glb_singleton] at h
            simp [gadd, h, index_cons, index_nil, total_gsize]
      | cons g2 G2 =>
          rcases h with h | h
          · exact absurd h (by simp)
          · rw [glb_cons_cons] at h
            have step : gadd (g :: g2 :: G2) t k = g :: gadd (g2 :: G2) t k := rfl
            have hoff : off + (group_size g : Int) + (total_gsize (g2 :: G2) : Int)
                = off + (total_gsize (g :: g2 :: G2) : Int) := by
              simp only [total_gsize, List.map_cons, List.sum_cons]
              push_cast
              ring
            rw [step, index_cons, ih _ (Or.inr h), hoff, ← List.cons_append, ← index_cons]

theorem mem_gadd_ts (G : List (Nat × List store_key_t)) (t : Nat) (k : store_key_t)
    (hne : G ≠ []) :
    ∀ h ∈ gadd G t k, h.1 ∈ G.map Prod.fst ∨ (h.1 = t ∧ glb G < t) := by
  induction G with
  | nil => exact absurd rfl hne
  | cons g G ih =>
      cases G with
      | nil =>
          rcases g with ⟨ts0, ks0⟩
          by_cases hlt : ts0 < t
          · intro h hh
            simp [gadd, hlt] at hh
            rcases hh with h1 | h1
            · left; simp [h1]
            · right; rw [glb_singleton]; simp [h1, hlt]
          · intro h hh
            simp [gadd, hlt] at hh
            left; simp [hh]
      | cons g2 G2 =>
          intro h hh
          simp only [gadd, List.mem_cons] at hh
          rcases hh with h1 | h1
          · left; simp [h1]
          · rcases ih (by simp) h h1 with h2 | h2
            · left; simp only [List.map_cons, List.mem_cons]
              simp only [List.map_cons, List.mem_cons] at h2
              tauto
            · right; rwa [glb_cons_cons]

theorem gwf_nil : gwf [] := ⟨by simp, List.Pairwise.nil⟩

theorem gwf_gadd (G : List (Nat × List store_key_t)) (t : Nat) (k : store_key_t)
    (h : gwf G) : gwf (gadd G t k) := by
  induction G with
  | nil => exact ⟨by simp [gadd], by simp [gadd]⟩
  | cons g G ih =>
      cases G with
      | nil =>
          rcases g with ⟨ts0, ks0⟩
          have hks0 : ks0 ≠ [] := h.1 (ts0, ks0) (by simp)
          by_cases hlt : ts0 < t
          · refine ⟨?_, ?_⟩
            · intro x hx
              simp [gadd, hlt] at hx
              rcases hx with h1 | h1 <;> simp [h1, hks0]
            · simp [gadd, hlt, List.pairwise_cons]
          · refine ⟨?_, ?_⟩
            · intro x hx
              simp [gadd, hlt] at hx
              simp [hx, hks0]
            · simp [gadd, hlt]
      | cons g2 G2 =>
          have hwf2 : gwf (g2 :: G2) := by
            refine ⟨fun x hx => h.1 x (List.mem_cons_of_mem g hx), ?_⟩
            exact (List.pairwise_cons.mp h.2).2
          have hih := ih hwf2
          have hglb2 : glb (g2 :: G2) ∈ (g2 :: G2).map Prod.fst := by
            obtain ⟨x, hx, hx1⟩ := glb_mem (g2 :: G2) (by simp)
            exact hx1 ▸ List.mem_map_of_mem Prod.fst hx
          have hgfst : ∀ y ∈ (g2 :: G2).map Prod.fst, g.1 < y := by
            intro y hy
            obtain ⟨x, hx, hx1⟩ := List.mem_map.mp hy
            exact hx1 ▸ (List.pairwise_cons.mp h.2).1 x hx
          refine ⟨?_, ?_⟩
          · intro x hx
            simp only [gadd, List.mem_cons] at hx
            rcases hx with h1 | h1
            · exact h1 ▸ h.1 g (by simp)
            · exact hih.1 x h1
          · rw [show gadd (g :: g2 :: G2) t k = g :: gadd (g2 :: G2) t k from rfl,
              List.pairwise_cons]
            refine ⟨?_, hih.2⟩
            intro x hx
            rcases mem_gadd_ts (g2 :: G2) t k (by simp) x hx with h1 | h1
            · exact hgfst _ h1
            · have := hgfst _ hglb2
              omega

/-!
Unfolding lemmas for `add_key_to_delete_queue`, one per branch of the
Offset Index update, and the correspondence between runs of the concrete
operation and the grouped journal.
-/

theorem add_eq_empty (q : DeleteQueue) (t : Nat) (k : store_key_t)
    (h : q.t_o.getLast? = none) :
    add_key_to_delete_queue q t k =
      { primal_offset := q.primal_offset,
        t_o := [{ timestamp := t, offset := q.primal_offset + q.keys.length }],
        keys := q.keys ++ serialized_key k } := by
  simp [add_key_to_delete_queue, h]

theorem add_eq_coalesce (q : DeleteQueue) (t : Nat) (k : store_key_t) (e : t_and_o)
    (h : q.t_o.getLast? = some e) (hle : t ≤ e.timestamp) :
    add_key_to_delete_queue q t k =
      { primal_offset := q.primal_offset,
        t_o := q.t_o,
        keys := q.keys ++ serialized_key k } := by
  have h1 : (if e.timestamp > t then e.timestamp else t) = e.timestamp := by
    split <;> omega
  simp [add_key_to_delete_queue, h, h1]

theorem add_eq_push (q : DeleteQueue) (t : Nat) (k : store_key_t) (e : t_and_o)
    (h : q.t_o.getLast? = some e) (hlt : e.timestamp < t) :
    add_key_to_delete_queue q t k =
      { primal_offset := q.primal_offset,
        t_o := q.t_o ++ [{ timestamp := t, offset := q.primal_offset + q.keys.length }],
        keys := q.keys ++ serialized_key k } := by
  have h1 : (if e.timestamp > t then e.timestamp else t) = t := by
    split <;> omega
  have h2 : e.timestamp ≠ t := by omega
  simp [add_key_to_delete_queue, h, h1, h2]

theorem index_ne_nil (G : List (Nat × List store_key_t)) (off : Int) (h : G ≠ []) :
    index_of_groups G off ≠ [] := by
  cases G with
  | nil => exact absurd rfl h
  | cons g G => simp [index_cons]

theorem index_getLast_ts (G : List (Nat × List store_key_t)) (off : Int) (h : G ≠ []) :
    ∃ e, (index_of_groups G off).getLast? = some e ∧ e.timestamp = glb G := by
  obtain ⟨e, he⟩ :=
    Option.isSome_iff_exists.mp (List.getLast?_isSome.mpr (index_ne_nil G off h))
  refine ⟨e, he, ?_⟩
  have h2 := index_last_ts G off
  rw [he] at h2
  simp only [Option.map_some'] at h2
  simp [glb, ← h2]

theorem add_state_of (G : List (Nat × List store_key_t)) (t : Nat) (k : store_key_t) :
    add_key_to_delete_queue (state_of_groups G) t k = state_of_groups (gadd G t k) := by
  rcases eq_or_ne G [] with hG | hG
  · subst hG
    rw [add_eq_empty _ t k (by simp [state_of_groups, index_nil])]
    simp [state_of_groups, gadd, index_cons, index_nil, keylog_cons, keylog_nil,
      bytes_of_keys_cons, bytes_of_keys_nil]
  · obtain ⟨e, he, hety⟩ := index_getLast_ts G 0 hG
    have he' : (state_of_groups G).t_o.getLast? = some e := he
    by_cases hlt : glb G < t
    · rw [add_eq_push _ t k e he' (by omega)]
      simp only [state_of_groups]
      rw [gadd_index_new G t k 0 (Or.inr hlt), gadd_keylog, keylog_length]
    · push_neg at hlt
      rw [add_eq_coalesce _ t k e he' (by omega)]
      simp only [state_of_groups]
      rw [gadd_index_coalesce G t k 0 hG hlt, gadd_keylog]

theorem run_state_of (inputs : List (Nat × store_key_t)) :
    ∀ G, run_enqueues (state_of_groups G) inputs
      = state_of_groups (inputs.foldl (fun G p => gadd G p.1 p.2) G) := by
  induction inputs with
  | nil => intro G; rfl
  | cons p rest ih =>
      intro G
      show run_enqueues (add_key_to_delete_queue (state_of_groups G) p.1 p.2) rest = _
      rw [add_state_of]
      exact ih (gadd G p.1 p.2)

theorem run_empty_eq (inputs : List (Nat × store_key_t)) :
    run_enqueues empty_delete_queue inputs = state_of_groups (grun inputs) := by
  have h : empty_delete_queue = state_of_groups [] := rfl
  rw [h, run_state_of]
  rfl

theorem gwf_foldl (inputs : List (Nat × store_key_t)) :
    ∀ G, gwf G → gwf (inputs.foldl (fun G p => gadd G p.1 p.2) G) := by
  induction inputs with
  | nil => exact fun G hG => hG
  | cons p rest ih => exact fun G hG => ih _ (gwf_gadd G p.1 p.2 hG)

theorem gwf_grun (inputs : List (Nat × store_key_t)) : gwf (grun inputs) :=
  gwf_foldl inputs [] gwf_nil

theorem ungroup_nil : ungroup [] = [] := rfl

theorem ungroup_cons (g : Nat × List store_key_t) (G : List (Nat × List store_key_t)) :
    ungroup (g :: G) = g.2.map (fun k => (g.1, k)) ++ ungroup G := rfl

theorem ungroup_foldl (inputs : List (Nat × store_key_t)) :
    ∀ G, ungroup (inputs.foldl (fun G p => gadd G p.1 p.2) G)
      = ungroup G ++ clamp_journal inputs (glb G) := by
  induction inputs with
  | nil => intro G; simp [clamp_journal]
  | cons p rest ih =>
      rcases p with ⟨t, kk⟩
      intro G
      show ungroup (rest.foldl _ (gadd G t kk)) = _
      rw [ih (gadd G t kk), gadd_ungroup, gadd_glb]
      show _ = ungroup G ++ ((max (glb G) t, kk) :: clamp_journal rest (max (glb G) t))
      simp [List.append_assoc]

theorem ungroup_grun (inputs : List (Nat × store_key_t)) :
    ungroup (grun inputs) = clamp_journal inputs 0 := by
  have h := ungroup_foldl inputs []
  simpa [grun, ungroup_nil, glb_nil] using h

/-!
Characterization of the Offset Index scan over a grouped journal, and
the round-trip of the Key Log walk.
-/

theorem scan_nil (primal : Int) (bts ets : Nat) (bf : Bool) (bo : Int) :
    scan_t_o primal bts ets [] bf bo = some (bf, bo, false, 0) := rfl

theorem scan_cons (primal : Int) (bts ets : Nat) (tao : t_and_o) (rest : List t_and_o)
    (bf : Bool) (bo : Int) :
    scan_t_o primal bts ets (tao :: rest) bf bo
      = (if ets ≤ tao.timestamp then
           (if (bf || decide (bts ≤ tao.timestamp)) then
              some ((bf || decide (bts ≤ tao.timestamp)),
                (if !bf && decide (bts ≤ tao.timestamp) then tao.offset - primal else bo),
                true, tao.offset - primal)
            else none)
         else
           scan_t_o primal bts ets rest (bf || decide (bts ≤ tao.timestamp))
             (if !bf && decide (bts ≤ tao.timestamp) then tao.offset - primal else bo)) := rfl

theorem total_gsize_cons (g : Nat × List store_key_t) (G : List (Nat × List store_key_t)) :
    total_gsize (g :: G) = group_size g + total_gsize G := by
  simp [total_gsize]

theorem scan_skip (bts ets : Nat) (hbe : bts ≤ ets) (R : List (Nat × List store_key_t))
    (bo : Int) (A : List (Nat × List store_key_t)) (hA : ∀ g ∈ A, g.1 < bts) (off : Int) :
    scan_t_o 0 bts ets (index_of_groups (A ++ R) off) false bo
      = scan_t_o 0 bts ets (index_of_groups R (off + total_gsize A)) false bo := by
  induction A generalizing off with
  | nil => simp [total_gsize]
  | cons g A ih =>
      have hg : g.1 < bts := hA g (by simp)
      rw [List.cons_append, index_cons, scan_cons, if_neg (by omega : ¬ ets ≤ g.1)]
      have h2 : (false || decide (bts ≤ g.1)) = false := by
        simp only [Bool.false_or, decide_eq_false_iff_not]
        omega
      have h3 : (!false && decide (bts ≤ g.1)) = false := by
        simp only [Bool.not_false, Bool.true_and, decide_eq_false_iff_not]
        omega
      rw [h2, h3]
      simp only [Bool.false_eq_true, if_false]
      have hoff : off + (group_size g : Int) + (total_gsize A : Int)
          = off + (total_gsize (g :: A) : Int) := by
        rw [total_gsize_cons]
        push_cast
        ring
      rw [ih (fun x hx => hA x (List.mem_cons_of_mem g hx)) (off + (group_size g : Int)),
        hoff]

theorem scan_true_no_end (bts ets : Nat) (Q : List (Nat × List store_key_t))
    (hQ : ∀ g ∈ Q, g.1 < ets) (bo : Int) :
    ∀ off : Int, scan_t_o 0 bts ets (index_of_groups Q off) true bo
      = some (true, bo, false, 0) := by
  induction Q with
  | nil => intro off; rfl
  | cons g Q ih =>
      intro off
      have hg : g.1 < ets := hQ g (by simp)
      rw [index_cons, scan_cons, if_neg (by omega : ¬ ets ≤ g.1)]
      simp only [Bool.true_or, Bool.not_true, Bool.false_and, Bool.false_eq_true, if_false]
      exact ih (fun x hx => hQ x (List.mem_cons_of_mem g hx)) _

theorem scan_true_end (bts ets : Nat) (d : Nat × List store_key_t)
    (D : List (Nat × List store_key_t)) (hd : ets ≤ d.1) (bo : Int)
    (T : List (Nat × List store_key_t)) (hT : ∀ g ∈ T, g.1 < ets) (off : Int) :
    scan_t_o 0 bts ets (index_of_groups (T ++ d :: D) off) true bo
      = some (true, bo, true, off + total_gsize T) := by
  induction T generalizing off with
  | nil =>
      rw [List.nil_append, index_cons, scan_cons, if_pos hd]
      simp [total_gsize]
  | cons g T ih =>
      have hg : g.1 < ets := hT g (by simp)
      rw [List.cons_append, index_cons, scan_cons, if_neg (by omega : ¬ ets ≤ g.1)]
      simp only [Bool.true_or, Bool.not_true, Bool.false_and, Bool.false_eq_true, if_false]
      rw [ih (fun x hx => hT x (List.mem_cons_of_mem g hx)) (off + (group_size g : Int))]
      have hoff : off + (group_size g : Int) + (total_gsize T : Int)
          = off + (total_gsize (g :: T) : Int) := by
        rw [total_gsize_cons]
        push_cast
        ring
      rw [hoff]

theorem group_size_pos (g : Nat × List store_key_t) (h : g.2 ≠ []) :
    0 < group_size g := by
  rcases g with ⟨ts, ks⟩
  cases ks with
  | nil => exact absurd rfl h
  | cons k ks =>
      simp [group_size, serialized_size]

theorem total_gsize_pos (G : List (Nat × List store_key_t)) (hwf : gwf G) (h : G ≠ []) :
    0 < total_gsize G := by
  cases G with
  | nil => exact absurd rfl h
  | cons g G =>
      have := group_size_pos g (hwf.1 g (by simp))
      rw [total_gsize_cons]
      omega

theorem walk_keys_nil : walk_keys [] = some [] := by
  simp [walk_keys]

theorem walk_bytes_of_keys (ks : List store_key_t) :
    walk_keys (bytes_of_keys ks) = some (ks.map (fun k => k.contents)) := by
  induction ks with
  | nil => simp [bytes_of_keys_nil, walk_keys_nil]
  | cons k ks ih =>
      rw [bytes_of_keys_cons]
      have hb : serialized_key k ++ bytes_of_keys ks
          = k.contents.length :: (k.contents ++ bytes_of_keys ks) := by
        simp [serialized_key]
      rw [hb]
      rw [walk_keys]
      have hlen : k.contents.length ≤ (k.contents ++ bytes_of_keys ks).length := by
        simp
      rw [if_pos hlen, List.drop_left, List.take_left, ih]
      rfl

theorem total_gsize_append (A B : List (Nat × List store_key_t)) :
    total_gsize (A ++ B) = total_gsize A + total_gsize B := by
  simp [total_gsize]

theorem keylog_slice_mid (A B C : List (Nat × List store_key_t)) :
    ((keylog_of_groups (A ++ B ++ C)).drop (total_gsize A)).take (total_gsize B)
      = keylog_of_groups B := by
  rw [List.append_assoc, keylog_append, ← keylog_length A, List.drop_left,
    keylog_append, ← keylog_length B, List.take_left]

theorem gkeys_contents_foldr (Q : List (Nat × List store_key_t)) :
    Q.foldr (fun g acc => g.2.map (fun k => k.contents) ++ acc) []
      = (gkeys Q).map (fun k => k.contents) := by
  induction Q with
  | nil => rfl
  | cons g Q ih => simp [gkeys_cons, List.foldr_cons, ih]

theorem gkeys_in_range_eq (G : List (Nat × List store_key_t)) (bts ets : Nat) :
    gkeys_in_range G bts ets
      = (gkeys ((G.dropWhile (fun g => decide (g.1 < bts))).takeWhile
          (fun g => decide (g.1 < ets)))).map (fun k => k.contents) := by
  rw [gkeys_in_range, gkeys_contents_foldr]

theorem dropWhile_head_not {α : Type} (p : α → Bool) (l : List α) (x : α) (xs : List α)
    (h : l.dropWhile p = x :: xs) : p x = false := by
  induction l with
  | nil => simp [List.dropWhile] at h
  | cons a l ih =>
      by_cases ha : p a = true
      · rw [List.dropWhile_cons_of_pos ha] at h
        exact ih h
      · rw [List.dropWhile_cons_of_neg ha] at h
        injection h with h1 h2
        subst h1
        exact Bool.eq_false_iff.mpr ha

/-!
Reduction helpers for the dump operation, and its full characterization
over a grouped journal.
-/

theorem scan_cons_begin_end (bts ets : Nat) (tao : t_and_o) (rest : List t_and_o)
    (bo : Int) (hb : bts ≤ tao.timestamp) (he : ets ≤ tao.timestamp) :
    scan_t_o 0 bts ets (tao :: rest) false bo
      = some (true, tao.offset - 0, true, tao.offset - 0) := by
  rw [scan_cons, if_pos he]
  simp [hb]

theorem scan_cons_begin_cont (bts ets : Nat) (tao : t_and_o) (rest : List t_and_o)
    (bo : Int) (hb : bts ≤ tao.timestamp) (he : tao.timestamp < ets) :
    scan_t_o 0 bts ets (tao :: rest) false bo
      = scan_t_o 0 bts ets rest true (tao.offset - 0) := by
  rw [scan_cons, if_neg (by omega : ¬ ets ≤ tao.timestamp)]
  simp [hb]

theorem scan_all_lt (bts ets : Nat) (hbe : bts ≤ ets) (G : List (Nat × List store_key_t))
    (hall : ∀ g ∈ G, g.1 < bts) (bo : Int) :
    ∀ off : Int, scan_t_o 0 bts ets (index_of_groups G off) false bo
      = some (false, bo, false, 0) := by
  induction G with
  | nil => intro off; rfl
  | cons g G ih =>
      intro off
      have hg : g.1 < bts := hall g (by simp)
      rw [index_cons, scan_cons, if_neg (by omega : ¬ ets ≤ g.1)]
      have h2 : (false || decide (bts ≤ g.1)) = false := by
        simp only [Bool.false_or, decide_eq_false_iff_not]
        omega
      have h3 : (!false && decide (bts ≤ g.1)) = false := by
        simp only [Bool.not_false, Bool.true_and, decide_eq_false_iff_not]
        omega
      rw [h2, h3]
      simp only [Bool.false_eq_true, if_false]
      exact ih (fun x hx => hall x (List.mem_cons_of_mem g hx)) _

theorem dump_of_offsets_none (q : DeleteQueue) (bts ets : Nat)
    (h : dump_offsets q bts ets = some none) :
    dump_keys_from_delete_queue q bts ets = some [dq_event.done] := by
  simp only [dump_keys_from_delete_queue]
  rw [h]

theorem dump_of_offsets_eq (q : DeleteQueue) (bts ets : Nat) (bo eo : Int)
    (h : dump_offsets q bts ets = some (some (bo, eo))) :
    dump_keys_from_delete_queue q bts ets
      = (if bo ≤ eo then
          if bo < eo then
            match walk_keys ((q.keys.drop bo.toNat).take (eo - bo).toNat) with
            | none => none
            | some ks => some (ks.map dq_event.deliver ++ [dq_event.done])
          else some [dq_event.done]
        else none) := by
  simp only [dump_keys_from_delete_queue]
  rw [h]

theorem dump_all_lt (G : List (Nat × List store_key_t)) (bts ets : Nat)
    (hbe : bts ≤ ets) (hall : ∀ g ∈ G, g.1 < bts) :
    dump_keys_from_delete_queue (state_of_groups G) bts ets = some [dq_event.done] := by
  rcases eq_or_ne G [] with hG | hG
  · subst hG
    rfl
  · have hlen : (index_of_groups G 0).length ≠ 0 := by
      rw [index_length]
      intro hc
      exact hG (List.length_eq_zero.mp hc)
    apply dump_of_offsets_none
    simp only [dump_offsets, state_of_groups]
    by_cases hkeys : (keylog_of_groups G).length ≠ 0
    · rw [if_pos ⟨hlen, hkeys⟩, scan_all_lt bts ets hbe G hall 0 0]
      rfl
    · rw [if_neg (by tauto)]

theorem dump_split_imm_end (A : List (Nat × List store_key_t))
    (r : Nat × List store_key_t) (R' : List (Nat × List store_key_t)) (bts ets : Nat)
    (hbe : bts ≤ ets) (hwf : gwf (A ++ r :: R')) (hA : ∀ g ∈ A, g.1 < bts)
    (hrb : bts ≤ r.1) (hre : ets ≤ r.1) :
    dump_keys_from_delete_queue (state_of_groups (A ++ r :: R')) bts ets
      = some [dq_event.done] := by
  have hlen : (index_of_groups (A ++ r :: R') 0).length ≠ 0 := by
    rw [index_length]
    simp
  have hkeys : (keylog_of_groups (A ++ r :: R')).length ≠ 0 := by
    rw [keylog_length]
    have := total_gsize_pos _ hwf (by simp)
    omega
  have hscan : scan_t_o 0 bts ets (index_of_groups (A ++ r :: R') 0) false 0
      = some (true, (0 + (total_gsize A : Int)) - 0, true,
          (0 + (total_gsize A : Int)) - 0) := by
    rw [scan_skip bts ets hbe (r :: R') 0 A hA 0, index_cons]
    exact scan_cons_begin_end bts ets _ _ _ hrb hre
  have hoffs : dump_offsets (state_of_groups (A ++ r :: R')) bts ets
      = some (some ((total_gsize A : Int), (total_gsize A : Int))) := by
    simp only [dump_offsets, state_of_groups]
    rw [if_pos ⟨hlen, hkeys⟩, hscan]
    simp
  rw [dump_of_offsets_eq _ _ _ _ _ hoffs, if_pos (le_refl _), if_neg (lt_irrefl _)]

theorem dump_split_no_end (A : List (Nat × List store_key_t))
    (r : Nat × List store_key_t) (R' : List (Nat × List store_key_t)) (bts ets : Nat)
    (hbe : bts ≤ ets) (hwf : gwf (A ++ r :: R')) (hA : ∀ g ∈ A, g.1 < bts)
    (hrb : bts ≤ r.1) (hre : r.1 < ets) (hD : ∀ g ∈ R', g.1 < ets) :
    dump_keys_from_delete_queue (state_of_groups (A ++ r :: R')) bts ets
      = some (((gkeys (r :: R')).map (fun k => k.contents)).map dq_event.deliver
          ++ [dq_event.done]) := by
  have hlen : (index_of_groups (A ++ r :: R') 0).length ≠ 0 := by
    rw [index_length]
    simp
  have hkeys : (keylog_of_groups (A ++ r :: R')).length ≠ 0 := by
    rw [keylog_length]
    have := total_gsize_pos _ hwf (by simp)
    omega
  have hgr : 0 < group_size r :=
    group_size_pos r (hwf.1 r (List.mem_append_right _ (by simp)))
  have htot : total_gsize (A ++ r :: R')
      = total_gsize A + (group_size r + total_gsize R') := by
    rw [total_gsize_append, total_gsize_cons]
  have hscan : scan_t_o 0 bts ets (index_of_groups (A ++ r :: R') 0) false 0
      = some (true, (0 + (total_gsize A : Int)) - 0, false, 0) := by
    rw [scan_skip bts ets hbe (r :: R') 0 A hA 0, index_cons,
      scan_cons_begin_cont bts ets _ _ _ hrb hre]
    exact scan_true_no_end bts ets R' hD _ _
  have hoffs : dump_offsets (state_of_groups (A ++ r :: R')) bts ets
      = some (some ((total_gsize A : Int), (total_gsize (A ++ r :: R') : Int))) := by
    simp only [dump_offsets, state_of_groups]
    rw [if_pos ⟨hlen, hkeys⟩, hscan]
    simp [keylog_length]
  rw [dump_of_offsets_eq _ _ _ _ _ hoffs,
    if_pos (by omega : (total_gsize A : Int) ≤ (total_gsize (A ++ r :: R') : Int)),
    if_pos (by omega : (total_gsize A : Int) < (total_gsize (A ++ r :: R') : Int))]
  simp only [state_of_groups]
  have h1 : ((total_gsize A : Int)).toNat = total_gsize A := Int.toNat_natCast _
  have h2 : ((total_gsize (A ++ r :: R') : Int) - (total_gsize A : Int)).toNat
      = total_gsize (r :: R') := by
    rw [total_gsize_cons]
    omega
  rw [h1, h2]
  have hsl : ((keylog_of_groups (A ++ r :: R')).drop (total_gsize A)).take
      (total_gsize (r :: R')) = keylog_of_groups (r :: R') := by
    have h3 : A ++ r :: R' = A ++ (r :: R') ++ [] := by simp
    rw [h3]
    exact keylog_slice_mid A (r :: R') []
  rw [hsl, keylog_eq_bytes_of_gkeys, walk_bytes_of_keys]

theorem dump_split_end (A : List (Nat × List store_key_t))
    (r : Nat × List store_key_t) (T : List (Nat × List store_key_t))
    (d : Nat × List store_key_t) (D : List (Nat × List store_key_t)) (bts ets : Nat)
    (hbe : bts ≤ ets) (hwf : gwf (A ++ r :: (T ++ d :: D))) (hA : ∀ g ∈ A, g.1 < bts)
    (hrb : bts ≤ r.1) (hre : r.1 < ets) (hT : ∀ g ∈ T, g.1 < ets) (hde : ets ≤ d.1) :
    dump_keys_from_delete_queue (state_of_groups (A ++ r :: (T ++ d :: D))) bts ets
      = some (((gkeys (r :: T)).map (fun k => k.contents)).map dq_event.deliver
          ++ [dq_event.done]) := by
  have hlen : (index_of_groups (A ++ r :: (T ++ d :: D)) 0).length ≠ 0 := by
    rw [index_length]
    simp
  have hkeys : (keylog_of_groups (A ++ r :: (T ++ d :: D))).length ≠ 0 := by
    rw [keylog_length]
    have := total_gsize_pos _ hwf (by simp)
    omega
  have hgr : 0 < group_size r :=
    group_size_pos r (hwf.1 r (List.mem_append_right _ (by simp)))
  have hscan : scan_t_o 0 bts ets (index_of_groups (A ++ r :: (T ++ d :: D)) 0) false 0
      = some (true, (0 + (total_gsize A : Int)) - 0, true,
          (0 + (total_gsize A : Int) + (group_size r : Int)) + (total_gsize T : Int)) := by
    rw [scan_skip bts ets hbe (r :: (T ++ d :: D)) 0 A hA 0, index_cons,
      scan_cons_begin_cont bts ets _ _ _ hrb hre]
    exact scan_true_end bts ets d D hde _ T hT _
  have hoffs : dump_offsets (state_of_groups (A ++ r :: (T ++ d :: D))) bts ets
      = some (some ((total_gsize A : Int),
          (total_gsize A : Int) + (group_size r : Int) + (total_gsize T : Int))) := by
    simp only [dump_offsets, state_of_groups]
    rw [if_pos ⟨hlen, hkeys⟩, hscan]
    simp
  rw [dump_of_offsets_eq _ _ _ _ _ hoffs,
    if_pos (by omega : (total_gsize A : Int)
      ≤ (total_gsize A : Int) + (group_size r : Int) + (total_gsize T : Int)),
    if_pos (by omega : (total_gsize A : Int)
      < (total_gsize A : Int) + (group_size r : Int) + (total_gsize T : Int))]
  simp only [state_of_groups]
  have h1 : ((total_gsize A : Int)).toNat = total_gsize A := Int.toNat_natCast _
  have h2 : ((total_gsize A : Int) + (group_size r : Int) + (total_gsize T : Int)
      - (total_gsize A : Int)).toNat = total_gsize (r :: T) := by
    rw [total_gsize_cons]
    omega
  rw [h1, h2]
  have hsl : ((keylog_of_groups (A ++ r :: (T ++ d :: D))).drop (total_gsize A)).take
      (total_gsize (r :: T)) = keylog_of_groups (r :: T) := by
    have h3 : A ++ r :: (T ++ d :: D) = A ++ (r :: T) ++ (d :: D) := by simp
    rw [h3]
    exact keylog_slice_mid A (r :: T) (d :: D)
  rw [hsl, keylog_eq_bytes_of_gkeys, walk_bytes_of_keys]

theorem dump_state_of (G : List (Nat × List store_key_t)) (hwf : gwf G) (bts ets : Nat)
    (hbe : bts ≤ ets) :
    dump_keys_from_delete_queue (state_of_groups G) bts ets
      = some ((gkeys_in_range G bts ets).map dq_event.deliver ++ [dq_event.done]) := by
  cases hR : G.dropWhile (fun g => decide (g.1 < bts)) with
  | nil =>
      have hall : ∀ g ∈ G, g.1 < bts := by
        intro x hx
        have h5 := List.dropWhile_eq_nil_iff.mp hR x hx
        simpa using h5
      rw [dump_all_lt G bts ets hbe hall, gkeys_in_range_eq, hR]
      simp [gkeys_nil]
  | cons r R' =>
      have h0 := List.takeWhile_append_dropWhile (fun g => decide (g.1 < bts)) G
      rw [hR] at h0
      have hA : ∀ g ∈ G.takeWhile (fun g => decide (g.1 < bts)), g.1 < bts := by
        intro x hx
        have h5 := List.mem_takeWhile_imp hx
        simpa using h5
      have hrb : bts ≤ r.1 := by
        have hhd := dropWhile_head_not _ G r R' hR
        simp only [decide_eq_false_iff_not] at hhd
        omega
      have hwf' : gwf (G.takeWhile (fun g => decide (g.1 < bts)) ++ r :: R') := by
        rw [h0]
        exact hwf
      rw [gkeys_in_range_eq, hR, ← h0]
      by_cases hre : ets ≤ r.1
      · rw [dump_split_imm_end _ r R' bts ets hbe hwf' hA hrb hre,
          List.takeWhile_cons_of_neg (by simp only [decide_eq_true_eq]; omega)]
        simp [gkeys_nil]
      · push_neg at hre
        cases hD : R'.dropWhile (fun g => decide (g.1 < ets)) with
        | nil =>
            have hall' : ∀ g ∈ R', g.1 < ets := by
              intro x hx
              have h5 := List.dropWhile_eq_nil_iff.mp hD x hx
              simpa using h5
            rw [dump_split_no_end _ r R' bts ets hbe hwf' hA hrb hre hall']
            rw [show (r :: R').takeWhile (fun g => decide (g.1 < ets)) = r :: R' from
              List.takeWhile_eq_self_iff.mpr (by
                intro x hx
                simp only [decide_eq_true_eq]
                rcases List.mem_cons.mp hx with h | h
                · subst h; omega
                · exact hall' x h)]
        | cons d D =>
            have h0' := List.takeWhile_append_dropWhile (fun g => decide (g.1 < ets)) R'
            rw [hD] at h0'
            have hT : ∀ g ∈ R'.takeWhile (fun g => decide (g.1 < ets)), g.1 < ets := by
              intro x hx
              have h5 := List.mem_takeWhile_imp hx
              simpa using h5
            have hde : ets ≤ d.1 := by
              have hhd := dropWhile_head_not _ R' d D hD
              simp only [decide_eq_false_iff_not] at hhd
              omega
            have hwf2 : gwf (G.takeWhile (fun g => decide (g.1 < bts))
                ++ r :: (R'.takeWhile (fun g => decide (g.1 < ets)) ++ d :: D)) := by
              rw [h0']
              exact hwf'
            rw [show (G.takeWhile (fun g => decide (g.1 < bts)) ++ r :: R')
                = G.takeWhile (fun g => decide (g.1 < bts))
                  ++ r :: (R'.takeWhile (fun g => decide (g.1 < ets)) ++ d :: D) by rw [h0']]
            rw [dump_split_end _ r _ d D bts ets hbe hwf2 hA hrb hre hT hde]
            rw [List.takeWhile_cons_of_pos (by simp only [decide_eq_true_eq]; omega)]

/-!
The range filter over the effective journal equals the group-range
extraction used by the dump characterization.
-/

theorem mem_ungroup_ts (G : List (Nat × List store_key_t)) (p : Nat × store_key_t)
    (hp : p ∈ ungroup G) : ∃ g ∈ G, p.1 = g.1 := by
  induction G with
  | nil => simp [ungroup_nil] at hp
  | cons g G ih =>
      rw [ungroup_cons, List.mem_append] at hp
      rcases hp with hp | hp
      · obtain ⟨k, hk, hk2⟩ := List.mem_map.mp hp
        exact ⟨g, by simp, by rw [← hk2]⟩
      · obtain ⟨x, hx, hx2⟩ := ih hp
        exact ⟨x, List.mem_cons_of_mem g hx, hx2⟩

theorem filter_ungroup_ge (bts ets : Nat) (Q : List (Nat × List store_key_t))
    (hp : List.Pairwise (fun a b => a.1 < b.1) Q) (hge : ∀ g ∈ Q, bts ≤ g.1) :
    ((ungroup Q).filter (fun p => decide (bts ≤ p.1) && decide (p.1 < ets))).map
        (fun p => p.2.contents)
      = (gkeys (Q.takeWhile (fun g => decide (g.1 < ets)))).map (fun k => k.contents) := by
  induction Q with
  | nil => rfl
  | cons h Q' ih =>
      have hhb : bts ≤ h.1 := hge h (by simp)
      by_cases hhe : h.1 < ets
      · rw [List.takeWhile_cons_of_pos (by simp only [decide_eq_true_eq]; omega),
          gkeys_cons, ungroup_cons, List.filter_append, List.map_append]
        have hfirst : (h.2.map (fun k => (h.1, k))).filter
            (fun p => decide (bts ≤ p.1) && decide (p.1 < ets))
            = h.2.map (fun k => (h.1, k)) := by
          rw [List.filter_eq_self]
          intro a ha
          obtain ⟨k, hk, hk2⟩ := List.mem_map.mp ha
          subst hk2
          simp only [Bool.and_eq_true, decide_eq_true_eq]
          omega
        rw [List.map_append, hfirst,
          ih (List.pairwise_cons.mp hp).2 (fun x hx => hge x (List.mem_cons_of_mem h hx))]
        simp [List.map_map, Function.comp]
      · rw [List.takeWhile_cons_of_neg (by simp only [decide_eq_true_eq]; omega), gkeys_nil]
        have hnone : (ungroup (h :: Q')).filter
            (fun p => decide (bts ≤ p.1) && decide (p.1 < ets)) = [] := by
          rw [List.filter_eq_nil_iff]
          intro a ha
          obtain ⟨g, hg, hg2⟩ := mem_ungroup_ts (h :: Q') a ha
          have hge2 : ets ≤ g.1 := by
            rcases List.mem_cons.mp hg with h1 | h1
            · subst h1
              omega
            · have := (List.pairwise_cons.mp hp).1 g h1
              omega
          simp only [Bool.and_eq_true, decide_eq_true_eq, not_and, not_lt]
          omega
        rw [hnone]
        rfl

theorem filter_ungroup (bts ets : Nat) (G : List (Nat × List store_key_t))
    (hwf : gwf G) :
    ((ungroup G).filter (fun p => decide (bts ≤ p.1) && decide (p.1 < ets))).map
        (fun p => p.2.contents)
      = gkeys_in_range G bts ets := by
  rw [gkeys_in_range_eq]
  induction G with
  | nil => rfl
  | cons h G' ih =>
      by_cases hhb : h.1 < bts
      · rw [List.dropWhile_cons_of_pos (by simp only [decide_eq_true_eq]; omega),
          ungroup_cons, List.filter_append, List.map_append]
        have hfirst : (h.2.map (fun k => (h.1, k))).filter
            (fun p => decide (bts ≤ p.1) && decide (p.1 < ets)) = [] := by
          rw [List.filter_eq_nil_iff]
          intro a ha
          obtain ⟨k, hk, hk2⟩ := List.mem_map.mp ha
          subst hk2
          simp only [Bool.and_eq_true, decide_eq_true_eq, not_and, not_lt]
          omega
        rw [hfirst]
        have hwf' : gwf G' :=
          ⟨fun x hx => hwf.1 x (List.mem_cons_of_mem h hx), (List.pairwise_cons.mp hwf.2).2⟩
        rw [ih hwf']
        rfl
      · rw [List.dropWhile_cons_of_neg (by simp only [decide_eq_true_eq]; omega)]
        have hge : ∀ g ∈ h :: G', bts ≤ g.1 := by
          intro g hg
          rcases List.mem_cons.mp hg with h1 | h1
          · subst h1
            omega
          · have := (List.pairwise_cons.mp hwf.2).1 g h1
            omega
        exact filter_ungroup_ge bts ets (h :: G') hwf.2 hge

/-!
Remaining helper lemmas: the end-to-end run specification, runs of
equal-timestamp enqueues, strict monotonicity of the Offset Index, the
scan on arbitrary entry lists when no entry reaches the end timestamp,
and the boundary decomposition of stored offsets.
-/

theorem dump_run_spec (inputs : List (Nat × store_key_t)) (bts ets : Nat)
    (hbe : bts ≤ ets) :
    dump_keys_from_delete_queue (run_enqueues empty_delete_queue inputs) bts ets
      = some ((spec_expected_deliveries inputs bts ets).map dq_event.deliver
          ++ [dq_event.done]) := by
  rw [run_empty_eq, dump_state_of (grun inputs) (gwf_grun inputs) bts ets hbe]
  have h : spec_expected_deliveries inputs bts ets = gkeys_in_range (grun inputs) bts ets := by
    rw [spec_expected_deliveries, ← ungroup_grun,
      filter_ungroup bts ets _ (gwf_grun inputs)]
  rw [h]

theorem run_enqueues_append (q : DeleteQueue) (l l' : List (Nat × store_key_t)) :
    run_enqueues q (l ++ l') = run_enqueues (run_enqueues q l) l' := by
  simp [run_enqueues, List.foldl_append]

theorem run_same_ts (t : Nat) (ks : List store_key_t) :
    ∀ q : DeleteQueue, (∃ o, q.t_o.getLast? = some { timestamp := t, offset := o }) →
    (run_enqueues q (ks.map (fun k => (t, k)))).t_o = q.t_o ∧
    (run_enqueues q (ks.map (fun k => (t, k)))).primal_offset = q.primal_offset ∧
    (run_enqueues q (ks.map (fun k => (t, k)))).keys = q.keys ++ bytes_of_keys ks := by
  induction ks with
  | nil =>
      intro q h
      exact ⟨rfl, rfl, by simp [run_enqueues, bytes_of_keys_nil]⟩
  | cons k ks ih =>
      intro q h
      obtain ⟨o, ho⟩ := h
      have hadd := add_eq_coalesce q t k { timestamp := t, offset := o } ho (le_refl t)
      have hstep : run_enqueues q ((k :: ks).map (fun k => (t, k)))
          = run_enqueues (add_key_to_delete_queue q t k) (ks.map (fun k => (t, k))) := rfl
      have hlast : (add_key_to_delete_queue q t k).t_o.getLast?
          = some { timestamp := t, offset := o } := by
        rw [hadd]
        exact ho
      obtain ⟨h1, h2, h3⟩ := ih (add_key_to_delete_queue q t k) ⟨o, hlast⟩
      refine ⟨?_, ?_, ?_⟩
      · rw [hstep, h1, hadd]
      · rw [hstep, h2, hadd]
      · rw [hstep, h3, hadd]
        simp [bytes_of_keys_cons, List.append_assoc]

theorem mem_index (G : List (Nat × List store_key_t)) (off : Int) (e : t_and_o)
    (h : e ∈ index_of_groups G off) :
    (∃ g ∈ G, e.timestamp = g.1) ∧ off ≤ e.offset := by
  induction G generalizing off with
  | nil => simp [index_nil] at h
  | cons g G ih =>
      rw [index_cons, List.mem_cons] at h
      rcases h with h | h
      · subst h
        exact ⟨⟨g, by simp, rfl⟩, le_refl _⟩
      · obtain ⟨⟨x, hx, hx2⟩, hoff⟩ := ih _ h
        refine ⟨⟨x, List.mem_cons_of_mem g hx, hx2⟩, ?_⟩
        have : (0 : Int) ≤ group_size g := by positivity
        omega

theorem index_pairwise (G : List (Nat × List store_key_t)) (hwf : gwf G) :
    ∀ off : Int, List.Pairwise (fun a b => a.timestamp < b.timestamp ∧ a.offset < b.offset)
      (index_of_groups G off) := by
  induction G with
  | nil => intro off; simp [index_nil]
  | cons g G ih =>
      intro off
      have hwf' : gwf G :=
        ⟨fun x hx => hwf.1 x (List.mem_cons_of_mem g hx), (List.pairwise_cons.mp hwf.2).2⟩
      rw [index_cons, List.pairwise_cons]
      refine ⟨?_, ih hwf' _⟩
      intro e he
      obtain ⟨⟨x, hx, hx2⟩, hoff⟩ := mem_index G (off + group_size g) e he
      constructor
      · have := (List.pairwise_cons.mp hwf.2).1 x hx
        simp only []
        omega
      · have := group_size_pos g (hwf.1 g (by simp))
        simp only []
        omega

theorem mem_index_split (G : List (Nat × List store_key_t)) (e : t_and_o) :
    ∀ off : Int, e ∈ index_of_groups G off →
      ∃ A B, G = A ++ B ∧ e.offset = off + (total_gsize A : Int) := by
  induction G with
  | nil => intro off h; simp [index_nil] at h
  | cons g G ih =>
      intro off h
      rw [index_cons, List.mem_cons] at h
      rcases h with h | h
      · refine ⟨[], g :: G, by simp, ?_⟩
        subst h
        simp [total_gsize]
      · obtain ⟨A, B, hG, hoff⟩ := ih _ h
        refine ⟨g :: A, B, by rw [List.cons_append, ← hG], ?_⟩
        rw [hoff, total_gsize_cons]
        push_cast
        ring

theorem scan_true_keeps (primal : Int) (bts ets : Nat) (l : List t_and_o)
    (hl : ∀ e ∈ l, e.timestamp < ets) (bo : Int) :
    scan_t_o primal bts ets l true bo = some (true, bo, false, 0) := by
  induction l with
  | nil => rfl
  | cons e l ih =>
      have he : e.timestamp < ets := hl e (by simp)
      rw [scan_cons, if_neg (by omega : ¬ ets ≤ e.timestamp)]
      simp only [Bool.true_or, Bool.not_true, Bool.false_and, Bool.false_eq_true, if_false]
      exact ih (fun x hx => hl x (List.mem_cons_of_mem e hx))

theorem scan_no_end_found (primal : Int) (bts ets : Nat) (l : List t_and_o)
    (hl : ∀ e ∈ l, e.timestamp < ets) (bo : Int) :
    scan_t_o primal bts ets l false bo
      = (match l.find? (fun e => decide (bts ≤ e.timestamp)) with
        | none => some (false, bo, false, 0)
        | some f => some (true, f.offset - primal, false, 0)) := by
  induction l with
  | nil => rfl
  | cons e l ih =>
      have he : e.timestamp < ets := hl e (by simp)
      rw [scan_cons, if_neg (by omega : ¬ ets ≤ e.timestamp)]
      by_cases hb : bts ≤ e.timestamp
      · rw [List.find?_cons_of_pos _ (by simpa using hb)]
        have h2 : (false || decide (bts ≤ e.timestamp)) = true := by simpa using hb
        have h3 : (!false && decide (bts ≤ e.timestamp)) = true := by simpa using hb
        rw [h2, h3]
        simp only [if_true]
        exact scan_true_keeps primal bts ets l
          (fun x hx => hl x (List.mem_cons_of_mem e hx)) _
      · rw [List.find?_cons_of_neg _ (by simpa using hb)]
        have h2 : (false || decide (bts ≤ e.timestamp)) = false := by simpa using hb
        have h3 : (!false && decide (bts ≤ e.timestamp)) = false := by simpa using hb
        rw [h2, h3]
        simp only [Bool.false_eq_true, if_false]
        exact ih (fun x hx => hl x (List.mem_cons_of_mem e hx))

/-!
Claim theorems.
-/

/-- C1: for any enqueued `(timestamp, key)` pairs and any half-open range
`[begin, end)`, the range query delivers exactly the keys whose effective
(clamped) timestamp `t` satisfies `begin ≤ t < end`, in timestamp order
with equal timestamps in enqueue order (the order of
`spec_expected_deliveries`), followed by exactly one completion signal. -/
theorem claim_C1_range_correctness (inputs : List (Nat × store_key_t)) (bts ets : Nat)
    (hbe : bts ≤ ets) :
    dump_keys_from_delete_queue (run_enqueues empty_delete_queue inputs) bts ets
      = some ((spec_expected_deliveries inputs bts ets).map dq_event.deliver
          ++ [dq_event.done]) :=
  dump_run_spec inputs bts ets hbe

/-- Witness for C1: the concrete scenario of the claim. After enqueuing
`(100, "a")`, `(100, "b")`, `(105, "c")`, `RangeQuery(100,105)` delivers
`["a","b"]`, `RangeQuery(105,9999)` delivers `["c"]`, and
`RangeQuery(0,100)` delivers nothing. -/
theorem claim_C1_witness :
    (100 : Nat) ≤ 105 ∧ (105 : Nat) ≤ 9999 ∧ (0 : Nat) ≤ 100 ∧
    dump_keys_from_delete_queue (run_enqueues empty_delete_queue
        [(100, ⟨[97], by decide⟩), (100, ⟨[98], by decide⟩), (105, ⟨[99], by decide⟩)])
        100 105
      = some [dq_event.deliver [97], dq_event.deliver [98], dq_event.done] ∧
    dump_keys_from_delete_queue (run_enqueues empty_delete_queue
        [(100, ⟨[97], by decide⟩), (100, ⟨[98], by decide⟩), (105, ⟨[99], by decide⟩)])
        105 9999
      = some [dq_event.deliver [99], dq_event.done] ∧
    dump_keys_from_delete_queue (run_enqueues empty_delete_queue
        [(100, ⟨[97], by decide⟩), (100, ⟨[98], by decide⟩), (105, ⟨[99], by decide⟩)])
        0 100
      = some [dq_event.done] :=
  ⟨by omega, by omega, by omega,
    claim_C1_range_correctness _ 100 105 (by omega),
    claim_C1_range_correctness _ 105 9999 (by omega),
    claim_C1_range_correctness _ 0 100 (by omega)⟩

/-- C5: whenever `dump_keys_from_delete_queue` completes (no `rassert`
fired), the receiver got zero or more `deliver` events followed by
exactly one `done` event, on every path. -/
theorem claim_C5_completion_signal (q : DeleteQueue) (bts ets : Nat)
    (evs : List dq_event) (h : dump_keys_from_delete_queue q bts ets = some evs) :
    ∃ ks : List (List Nat), evs = ks.map dq_event.deliver ++ [dq_event.done] := by
  rcases h1 : dump_offsets q bts ets with _ | o
  · simp only [dump_keys_from_delete_queue, h1] at h
    exact Option.noConfusion h
  · cases o with
    | none =>
        simp only [dump_keys_from_delete_queue, h1] at h
        injection h with h2
        exact ⟨[], h2.symm⟩
    | some pr =>
        obtain ⟨bo, eo⟩ := pr
        simp only [dump_keys_from_delete_queue, h1] at h
        by_cases hle : bo ≤ eo
        · rw [if_pos hle] at h
          by_cases hlt : bo < eo
          · rw [if_pos hlt] at h
            rcases h2 : walk_keys ((q.keys.drop bo.toNat).take (eo - bo).toNat) with _ | ks
            · simp only [h2] at h
              exact Option.noConfusion h
            · simp only [h2] at h
              injection h with h3
              exact ⟨ks, h3.symm⟩
          · rw [if_neg hlt] at h
            injection h with h3
            exact ⟨[], h3.symm⟩
        · rw [if_neg hle] at h
          simp at h

/-- Witness for C5: on the empty queue, the event stream is exactly one
`done` event, i.e. zero delivers followed by one completion. -/
theorem claim_C5_witness :
    ∃ ks : List (List Nat), [dq_event.done] = ks.map dq_event.deliver ++ [dq_event.done] :=
  claim_C5_completion_signal empty_delete_queue 0 5 [dq_event.done] rfl

/-- Counterexample for C6 as stated: with caller-supplied
`begin_timestamp = 200 > end_timestamp = 100` and the reachable queue
holding one entry of timestamp 150, the scan meets an end-marking entry
before any begin-marking one, the `rassert(begin_found)` fires (modelled
by `none`), refuting the claim for arbitrary caller-supplied bounds. -/
theorem claim_C6_counterexample :
    dump_keys_from_delete_queue
        (run_enqueues empty_delete_queue [(150, ⟨[120], by decide⟩)]) 200 100 = none := rfl

/-- C6 (amended): whenever `begin_timestamp ≤ end_timestamp`, the
`rassert(begin_found)` in the Offset Index scan never fires, for every
queue state (an entry with `end_timestamp ≤ t` also satisfies
`begin_timestamp ≤ t`, so `begin_found` is set in the same iteration
before the assertion is checked). -/
theorem claim_C6_scan_assert (bts ets : Nat) (hbe : bts ≤ ets) :
    (∀ (primal : Int) (entries : List t_and_o) (bf : Bool) (bo : Int),
        scan_t_o primal bts ets entries bf bo ≠ none) ∧
    (∀ q : DeleteQueue, dump_offsets q bts ets ≠ none) := by
  have hscan : ∀ (primal : Int) (entries : List t_and_o) (bf : Bool) (bo : Int),
      scan_t_o primal bts ets entries bf bo ≠ none := by
    intro primal entries
    induction entries with
    | nil => intro bf bo; simp [scan_nil]
    | cons e l ih =>
        intro bf bo
        rw [scan_cons]
        by_cases he : ets ≤ e.timestamp
        · rw [if_pos he]
          have hb2 : (bf || decide (bts ≤ e.timestamp)) = true := by
            have : bts ≤ e.timestamp := le_trans hbe he
            simp [this]
          rw [hb2]
          simp
        · rw [if_neg he]
          exact ih _ _
  refine ⟨hscan, ?_⟩
  intro q
  by_cases hc : q.t_o.length ≠ 0 ∧ q.keys.length ≠ 0
  · simp only [dump_offsets]
    rw [if_pos hc]
    rcases h2 : scan_t_o q.primal_offset bts ets q.t_o false 0 with _ | r
    · exact absurd h2 (hscan q.primal_offset q.t_o false 0)
    · obtain ⟨bf, bo, ef, eo⟩ := r
      by_cases hbf : bf = true
      · subst hbf
        simp
      · simp only [Bool.not_eq_true] at hbf
        subst hbf
        simp
  · simp only [dump_offsets]
    rw [if_neg hc]
    simp

/-- Witness for C6's amended theorem at concrete inputs: with
`begin = 100 ≤ end = 200` neither the scan on a concrete entry list nor
the offset computation on a concrete reachable queue hits the assertion. -/
theorem claim_C6_witness :
    (100 : Nat) ≤ 200 ∧
    scan_t_o 0 100 200 [{ timestamp := 150, offset := 0 }] false 0 ≠ none ∧
    dump_offsets (run_enqueues empty_delete_queue [(150, ⟨[120], by decide⟩)]) 100 200
      ≠ none :=
  ⟨by omega, (claim_C6_scan_assert 100 200 (by omega)).1 0 _ false 0,
    (claim_C6_scan_assert 100 200 (by omega)).2 _⟩

/-- C8: `initialize_empty_delete_queue` writes the expected magic
`'DelQ'`, zeroes the primal offset, and puts both large-buffer
references into the unallocated state: offset 0, size 0, every inline
block pointer cleared to `NULL_BLOCK_ID`. -/
theorem claim_C8_initialization (n1 n2 : Nat) :
    (initialize_empty_delete_queue n1 n2).magic = delete_queue_block_t.expected_magic ∧
    (initialize_empty_delete_queue n1 n2).primal_offset = 0 ∧
    ((initialize_empty_delete_queue n1 n2).timestamps_and_offsets.offset = 0 ∧
      (initialize_empty_delete_queue n1 n2).timestamps_and_offsets.size = 0 ∧
      ∀ i ∈ (initialize_empty_delete_queue n1 n2).timestamps_and_offsets.block_ids,
        i = NULL_BLOCK_ID) ∧
    ((initialize_empty_delete_queue n1 n2).keys.offset = 0 ∧
      (initialize_empty_delete_queue n1 n2).keys.size = 0 ∧
      ∀ i ∈ (initialize_empty_delete_queue n1 n2).keys.block_ids, i = NULL_BLOCK_ID) := by
  refine ⟨rfl, rfl, ⟨rfl, rfl, ?_⟩, ⟨rfl, rfl, ?_⟩⟩ <;>
    exact fun i hi => List.eq_of_mem_replicate hi

/-- Witness for C8 at concrete slot counts 3 and 13: the primal offset is
zeroed and a concrete member of the cleared pointer array equals
`NULL_BLOCK_ID`. -/
theorem claim_C8_witness :
    (initialize_empty_delete_queue 3 13).primal_offset = 0 ∧
    (4294967295 : Nat) = NULL_BLOCK_ID :=
  ⟨(claim_C8_initialization 3 13).2.1,
    (claim_C8_initialization 3 13).2.2.1.2.2 4294967295 (by decide)⟩

/-- C9: on every state reachable from the initialized queue by enqueues,
the Offset Index buffer and the Key Log buffer are allocated in
lockstep: one is size 0 exactly when the other is, so the dump guard
requiring both sizes nonzero is equivalent to requiring either one
nonzero. -/
theorem claim_C9_lockstep (inputs : List (Nat × store_key_t)) :
    ((run_enqueues empty_delete_queue inputs).t_o.length = 0
      ↔ (run_enqueues empty_delete_queue inputs).keys.length = 0) ∧
    (((run_enqueues empty_delete_queue inputs).t_o.length ≠ 0
        ∧ (run_enqueues empty_delete_queue inputs).keys.length ≠ 0)
      ↔ ((run_enqueues empty_delete_queue inputs).t_o.length ≠ 0
        ∨ (run_enqueues empty_delete_queue inputs).keys.length ≠ 0)) := by
  rw [run_empty_eq]
  have h1 : (state_of_groups (grun inputs)).t_o.length = (grun inputs).length :=
    index_length _ _
  have h2 : (state_of_groups (grun inputs)).keys.length = total_gsize (grun inputs) :=
    keylog_length _
  rcases eq_or_ne (grun inputs) [] with hG | hG
  · rw [h1, h2, hG]
    simp [total_gsize]
  · have h3 : (grun inputs).length ≠ 0 := fun hc => hG (List.length_eq_zero.mp hc)
    have h4 := total_gsize_pos _ (gwf_grun inputs) hG
    rw [h1, h2]
    exact ⟨by omega, by omega⟩

/-- C2: when the Offset Index already ends with an entry of the incoming
timestamp, the enqueue creates no new index entry and only the Key Log
grows; consequently, starting from any state whose last index timestamp
(if any) is below `t`, N ≥ 1 consecutive enqueues at timestamp `t`
produce exactly one new Offset Index entry and N new Key Log entries. -/
theorem claim_C2_coalescing :
    (∀ (q : DeleteQueue) (t : Nat) (k : store_key_t) (e : t_and_o),
        q.t_o.getLast? = some e → e.timestamp = t →
        (add_key_to_delete_queue q t k).t_o = q.t_o ∧
        (add_key_to_delete_queue q t k).keys = q.keys ++ serialized_key k) ∧
    (∀ (q : DeleteQueue) (t : Nat) (ks : List store_key_t), ks ≠ [] →
        (∀ e ∈ q.t_o.getLast?, e.timestamp < t) →
        (run_enqueues q (ks.map (fun k => (t, k)))).t_o
          = q.t_o ++ [{ timestamp := t, offset := q.primal_offset + q.keys.length }] ∧
        (run_enqueues q (ks.map (fun k => (t, k)))).keys
          = q.keys ++ bytes_of_keys ks) := by
  constructor
  · intro q t k e he het
    have h := add_eq_coalesce q t k e he (by omega)
    rw [h]
    exact ⟨rfl, rfl⟩
  · intro q t ks hks hlast
    cases ks with
    | nil => exact absurd rfl hks
    | cons k ks' =>
        have hfirst : (add_key_to_delete_queue q t k).t_o
              = q.t_o ++ [{ timestamp := t, offset := q.primal_offset + q.keys.length }]
            ∧ (add_key_to_delete_queue q t k).primal_offset = q.primal_offset
            ∧ (add_key_to_delete_queue q t k).keys = q.keys ++ serialized_key k := by
          rcases hq : q.t_o.getLast? with _ | e
          · have h := add_eq_empty q t k hq
            rw [h]
            refine ⟨?_, rfl, rfl⟩
            have hnil : q.t_o = [] := List.getLast?_eq_none_iff.mp hq
            rw [hnil]
            rfl
          · have hlt : e.timestamp < t := hlast e (Option.mem_def.mpr hq)
            have h := add_eq_push q t k e hq hlt
            rw [h]
            exact ⟨rfl, rfl, rfl⟩
        have hlast2 : (add_key_to_delete_queue q t k).t_o.getLast?
            = some { timestamp := t, offset := q.primal_offset + q.keys.length } := by
          rw [hfirst.1]
          exact List.getLast?_concat _
        obtain ⟨h1, h2, h3⟩ := run_same_ts t ks' (add_key_to_delete_queue q t k)
          ⟨q.primal_offset + q.keys.length, hlast2⟩
        have hstep : run_enqueues q ((k :: ks').map (fun k => (t, k)))
            = run_enqueues (add_key_to_delete_queue q t k) (ks'.map (fun k => (t, k))) := rfl
        constructor
        · rw [hstep, h1, hfirst.1]
        · rw [hstep, h3, hfirst.2.2, bytes_of_keys_cons, List.append_assoc]

/-- Witness for C2: two enqueues at timestamp 7 on the empty queue yield
one Offset Index entry `(7, 0)` and the two serialized keys in the Key
Log. -/
theorem claim_C2_witness :
    ([(⟨[97], by decide⟩ : store_key_t), ⟨[98], by decide⟩] ≠ ([] : List store_key_t)) ∧
    (run_enqueues empty_delete_queue
        ([(⟨[97], by decide⟩ : store_key_t), ⟨[98], by decide⟩].map
          (fun k => ((7 : Nat), k)))).t_o
      = [{ timestamp := 7, offset := 0 }] ∧
    (run_enqueues empty_delete_queue
        ([(⟨[97], by decide⟩ : store_key_t), ⟨[98], by decide⟩].map
          (fun k => ((7 : Nat), k)))).keys
      = [1, 97, 1, 98] := by
  have h := claim_C2_coalescing.2 empty_delete_queue 7
    [⟨[97], by decide⟩, ⟨[98], by decide⟩] (by simp) (by simp [empty_delete_queue])
  exact ⟨by simp, h.1, h.2⟩

/-- C3: an enqueue whose timestamp is strictly below the last stored
Offset Index timestamp emits the non-fatal warning, has its effective
timestamp replaced by that last timestamp, leaves the Offset Index
unchanged, and still appends the key to the Key Log; in the spec's
scenario, after `(100, a)` then `(50, b)` both keys are delivered by
`RangeQuery(100, 101)` in enqueue order. -/
theorem claim_C3_out_of_order :
    (∀ (q : DeleteQueue) (t : Nat) (k : store_key_t) (e : t_and_o),
        q.t_o.getLast? = some e → t < e.timestamp →
        emits_out_of_order_warning q t = true ∧
        effective_timestamp q t = e.timestamp ∧
        (add_key_to_delete_queue q t k).t_o = q.t_o ∧
        (add_key_to_delete_queue q t k).keys = q.keys ++ serialized_key k) ∧
    (∀ a b : store_key_t,
        dump_keys_from_delete_queue
            (run_enqueues empty_delete_queue [(100, a), (50, b)]) 100 101
          = some [dq_event.deliver a.contents, dq_event.deliver b.contents,
              dq_event.done]) := by
  constructor
  · intro q t k e he hlt
    refine ⟨?_, ?_, ?_, ?_⟩
    · simp only [emits_out_of_order_warning, he]
      simp only [gt_iff_lt, decide_eq_true_eq]
      omega
    · simp only [effective_timestamp, he]
      rw [if_pos (by omega : e.timestamp > t)]
    · have h := add_eq_coalesce q t k e he (by omega)
      rw [h]
    · have h := add_eq_coalesce q t k e he (by omega)
      rw [h]
  · intro a b
    exact dump_run_spec [(100, a), (50, b)] 100 101 (by omega)

/-- Witness for C3: enqueuing at 100 then at 50 warns, clamps to 100,
keeps the single index entry, and both keys remain retrievable in
enqueue order through `RangeQuery(100, 101)`. -/
theorem claim_C3_witness :
    ((run_enqueues empty_delete_queue
          [((100 : Nat), (⟨[97], by decide⟩ : store_key_t))]).t_o.getLast?
        = some { timestamp := 100, offset := 0 } ∧ (50 : Nat) < 100) ∧
    emits_out_of_order_warning
        (run_enqueues empty_delete_queue [((100 : Nat), ⟨[97], by decide⟩)]) 50 = true ∧
    effective_timestamp
        (run_enqueues empty_delete_queue [((100 : Nat), ⟨[97], by decide⟩)]) 50 = 100 ∧
    (add_key_to_delete_queue
        (run_enqueues empty_delete_queue [((100 : Nat), ⟨[97], by decide⟩)]) 50
        ⟨[98], by decide⟩).t_o
      = (run_enqueues empty_delete_queue [((100 : Nat), ⟨[97], by decide⟩)]).t_o ∧
    dump_keys_from_delete_queue
        (run_enqueues empty_delete_queue
          [((100 : Nat), ⟨[97], by decide⟩), (50, ⟨[98], by decide⟩)]) 100 101
      = some [dq_event.deliver [97], dq_event.deliver [98], dq_event.done] := by
  have h := claim_C3_out_of_order.1
    (run_enqueues empty_delete_queue [((100 : Nat), ⟨[97], by decide⟩)]) 50
    (⟨[98], by decide⟩ : store_key_t) { timestamp := 100, offset := 0 } rfl (by decide)
  exact ⟨⟨rfl, by omega⟩, h.1, h.2.1, h.2.2.1,
    claim_C3_out_of_order.2 ⟨[97], by decide⟩ ⟨[98], by decide⟩⟩

/-- C4: the Offset Index is a sequence of 12-byte entries strictly
increasing in both timestamp and offset, and its byte size is a multiple
of 12; initialization establishes it (size 0), it holds after every run
of enqueues, and every further enqueue preserves it. -/
theorem claim_C4_offset_index_invariant :
    (List.Pairwise (fun a b => a.timestamp < b.timestamp ∧ a.offset < b.offset)
        empty_delete_queue.t_o
      ∧ t_o_ref_byte_size empty_delete_queue = 0) ∧
    (∀ inputs : List (Nat × store_key_t),
      List.Pairwise (fun a b => a.timestamp < b.timestamp ∧ a.offset < b.offset)
          (run_enqueues empty_delete_queue inputs).t_o
        ∧ 12 ∣ t_o_ref_byte_size (run_enqueues empty_delete_queue inputs)) ∧
    (∀ (inputs : List (Nat × store_key_t)) (t : Nat) (k : store_key_t),
      List.Pairwise (fun a b => a.timestamp < b.timestamp ∧ a.offset < b.offset)
          (add_key_to_delete_queue (run_enqueues empty_delete_queue inputs) t k).t_o
        ∧ 12 ∣ t_o_ref_byte_size
            (add_key_to_delete_queue (run_enqueues empty_delete_queue inputs) t k)) := by
  have hrun : ∀ inputs : List (Nat × store_key_t),
      List.Pairwise (fun a b => a.timestamp < b.timestamp ∧ a.offset < b.offset)
          (run_enqueues empty_delete_queue inputs).t_o
        ∧ 12 ∣ t_o_ref_byte_size (run_enqueues empty_delete_queue inputs) := by
    intro inputs
    rw [run_empty_eq]
    exact ⟨index_pairwise (grun inputs) (gwf_grun inputs) 0,
      ⟨(state_of_groups (grun inputs)).t_o.length, rfl⟩⟩
  refine ⟨⟨List.Pairwise.nil, rfl⟩, hrun, ?_⟩
  intro inputs t k
  have h := hrun (inputs ++ [(t, k)])
  rw [run_enqueues_append] at h
  exact h

/-- C7: when some Offset Index entry has timestamp at least
`begin_timestamp` but none reaches `end_timestamp`, the computed range is
open-ended: the begin offset is the first qualifying entry's absolute
offset minus `primal_offset`, and the end offset is the absolute end of
the log (`primal_offset` plus the Key Log size) minus `primal_offset`. -/
theorem claim_C7_open_ended_range (q : DeleteQueue) (bts ets : Nat) (f : t_and_o)
    (hf : q.t_o.find? (fun e => decide (bts ≤ e.timestamp)) = some f)
    (hlt : ∀ e ∈ q.t_o, e.timestamp < ets)
    (hk : q.keys ≠ []) :
    dump_offsets q bts ets
      = some (some (f.offset - q.primal_offset,
          (q.primal_offset + (q.keys.length : Int)) - q.primal_offset)) := by
  have ht_o : q.t_o ≠ [] := by
    intro hc
    rw [hc] at hf
    simp at hf
  have hlen : q.t_o.length ≠ 0 := fun hc => ht_o (List.length_eq_zero.mp hc)
  have hklen : q.keys.length ≠ 0 := fun hc => hk (List.length_eq_zero.mp hc)
  simp only [dump_offsets]
  rw [if_pos ⟨hlen, hklen⟩, scan_no_end_found q.primal_offset bts ets q.t_o hlt 0, hf]
  simp [add_sub_cancel_left]

/-- Witness for C7: one entry `(100, 0)`, query `[100, 9999)`: the begin
offset is that entry's offset relative to the primal offset and the end
offset is the Key Log size (2 bytes for one serialized one-byte key). -/
theorem claim_C7_witness :
    dump_offsets
        (run_enqueues empty_delete_queue
          [((100 : Nat), (⟨[97], by decide⟩ : store_key_t))]) 100 9999
      = some (some (0 - 0, (0 + ((2 : Nat) : Int)) - 0)) :=
  claim_C7_open_ended_range _ 100 9999 { timestamp := 100, offset := 0 } rfl
    (by decide) (by decide)

/-- C10: on every reachable state, each stored Offset Index offset
(minus `primal_offset`) falls exactly on a Key Log entry boundary (the
log splits there into two walkable halves), and for any
`begin ≤ end` range query the sequential walk of the fetched slice never
fails (the dump never aborts on an `rassert`). -/
theorem claim_C10_boundary_walk (inputs : List (Nat × store_key_t)) (bts ets : Nat)
    (hbe : bts ≤ ets) :
    (∀ e ∈ (run_enqueues empty_delete_queue inputs).t_o,
        ∃ p s : List Nat,
          (run_enqueues empty_delete_queue inputs).keys = p ++ s ∧
          e.offset - (run_enqueues empty_delete_queue inputs).primal_offset
            = (p.length : Int) ∧
          (walk_keys p).isSome = true ∧ (walk_keys s).isSome = true) ∧
    dump_keys_from_delete_queue (run_enqueues empty_delete_queue inputs) bts ets
      ≠ none := by
  constructor
  · rw [run_empty_eq]
    simp only [state_of_groups]
    intro e he
    obtain ⟨A, B, hG, hoff⟩ := mem_index_split (grun inputs) e 0 he
    refine ⟨keylog_of_groups A, keylog_of_groups B, ?_, ?_, ?_, ?_⟩
    · rw [hG, keylog_append]
    · rw [hoff, keylog_length]
      ring
    · rw [keylog_eq_bytes_of_gkeys, walk_bytes_of_keys]
      rfl
    · rw [keylog_eq_bytes_of_gkeys, walk_bytes_of_keys]
      rfl
  · rw [dump_run_spec inputs bts ets hbe]
    simp

/-- Witness for C10: a concrete one-entry queue and the range
`[100, 105)`: the dump completes without any assertion failure. -/
theorem claim_C10_witness :
    (100 : Nat) ≤ 105 ∧
    dump_keys_from_delete_queue
        (run_enqueues empty_delete_queue
          [((100 : Nat), (⟨[97], by decide⟩ : store_key_t))]) 100 105
      ≠ none :=
  ⟨by omega, (claim_C10_boundary_walk [((100 : Nat), ⟨[97], by decide⟩)] 100 105
    (by omega)).2⟩
